import Mathlib

/-!
Verification of the pos33 cryptographic sortition core (plugin/consensus/pos33/sortition.go).

The Go source contains two variants of the sortition module.  The first variant
provides voterSort, makerSort, verifySort(height, step, seed, m) and getMakerSorts;
the second variant (embedded below in namespace V2) provides sort, calcDiff,
verifySort(height, step, allw, seed, m) and bp.

Modelling conventions:
* byte slices are lists of naturals (each < 256 on real inputs);
* Go float64 arithmetic is modelled with exact rationals; the design notes of the
  spec require the threshold comparison hash / 2^256 <= diff to behave like an
  exact big-number comparison, which the rational model realises;
* external library calls (double SHA-256, the secp256k1 VRF, protobuf encoding,
  address derivation) and consensus constants declared in packages outside this
  repository (pt.Pos33SortBlocks, pt.Pos33VoterSize, pt.Pos33MakerSize,
  pt.Pos33ProposerSize, pt.Pos33RewardVotes, pt.Pos33SortitionSize, and the
  package-level calcuDiffBlockN) are collected in the parameter structure Env;
* Go nil pointers are modelled with Option.
-/

/-- Byte strings ([]byte in Go). -/
abbrev Bytes := List Nat

/-- big.Int SetBytes: interpret a byte string as a big-endian natural number. -/
def bytesToNat (bs : Bytes) : Nat := bs.foldl (fun a b => a * 256 + b) 0

/-- fmax = 2^256, the constant the source divides sort hashes by. -/
def fmaxQ : ℚ := ((2 ^ 256 : Nat) : ℚ)

/-- Go string comparison on byte strings: lexicographic, a strict prefix is smaller.
Models the string(a) < string(b) comparisons of the source. -/
def bytesLT : Bytes → Bytes → Bool
  | _, [] => false
  | [], _ :: _ => true
  | a :: as, b :: bs => a < b || (a == b && bytesLT as bs)

/-- Non-strict byte-string order, b is not smaller than a. -/
def bytesLE (a b : Bytes) : Bool := !(bytesLT b a)

/-- Lowercase hex digit of a value below 16 (fmt %x). -/
def hexDigit (n : Nat) : Char := if n < 10 then Char.ofNat (48 + n) else Char.ofNat (87 + n)

/-- Two lowercase hex digits of one byte (fmt %x prints bytes zero-padded to width 2). -/
def hexByte (b : Nat) : String := String.mk [hexDigit (b / 16 % 16), hexDigit (b % 16)]

/-- fmt.Sprintf %x of a byte slice: lowercase hex, two digits per byte. -/
def hexOfBytes (bs : Bytes) : String := String.join (bs.map hexByte)

/-- Pre-image string of the first variant, fmt.Sprintf with three fields:
hex of the vrf hash, decimal index, decimal num. -/
def sortData (vrfHash : Bytes) (index num : Int) : String :=
  hexOfBytes vrfHash ++ "+" ++ toString index ++ "+" ++ toString num

/-- Modelled from the spec: the canonical hash-input string
lowercase_hex(vrf_hash) + "+" + decimal(index) + "+" + decimal(num) of section 6,
stated independently of the source for the refinement claim C2. -/
def canonicalData (vrfHash : Bytes) (index num : Int) : String :=
  hexOfBytes vrfHash ++ "+" ++ toString index ++ "+" ++ toString num

/-- Threshold test of the source: big.Float Quo(hash, fmax) compared with diff;
true when hash / 2^256 exceeds diff (the rejection condition). -/
def ratioGT (hash : Bytes) (diff : ℚ) : Bool :=
  decide (diff < (bytesToNat hash : ℚ) / fmaxQ)

/-- pt.VrfInput: the serialized sort input tuple. -/
structure VrfInput where
  seed : Bytes
  height : Int
  round : Int
  step : Int
  deriving DecidableEq, Repr

/-- pt.HashProof: the proof envelope shared by all selections of one participant. -/
structure HashProof where
  input : Option VrfInput
  diff : ℚ
  vrfHash : Bytes
  vrfProof : Bytes
  pubkey : Bytes
  deriving DecidableEq, Repr

/-- pt.SortHash: one selected ticket (hash, ticket index, trial or slot number). -/
structure SortHash where
  hash : Bytes
  index : Int
  num : Int
  deriving DecidableEq, Repr

/-- pt.Pos33SortMsg: a sortition message; pointer sub-fields are Options. -/
structure Pos33SortMsg where
  sortHash : Option SortHash
  proof : Option HashProof
  deriving DecidableEq, Repr

/-- pt.Pos33DepositMsg: the deposit-state record returned by queryDeposit. -/
structure Pos33DepositMsg where
  count : Int
  preCount : Int
  closeHeight : Int
  deriving DecidableEq, Repr

/-- Error kinds surfaced by the verifier; each corresponds to one return of the
Go code (fmt.Errorf values, pt.ErrVrfVerify, errDiff, propagated deposit errors). -/
inductive SortError where
  | nilMsg
  | depositErr
  | invalidIndex
  | vrfFailed
  | invalidNum
  | hashMismatch
  | diffExceeded
  deriving DecidableEq, Repr

/-- External collaborators and consensus constants.  The function fields model
library code outside this repository (chain33 crypto, secp256k1 VRF, protobuf,
address derivation); the numeric fields model the consensus constants declared
in the pos33 types package, which is not part of the given sources, so they are
kept abstract. -/
structure Env where
  /-- crypto.Sha256 applied twice (hash2 in the source), on the bytes of the
  pre-image string. -/
  hash2 : String → Bytes
  /-- vrf.PrivateKey.Evaluate: private key bytes and input bytes to
  (vrf hash, vrf proof). -/
  evaluate : Bytes → Bytes → Bytes × Bytes
  /-- priv.PubKey().Bytes(): public key bytes of a private key. -/
  pubOf : Bytes → Bytes
  /-- vrf.PublicKey.ProofToHash, combined with pubkey parsing: none models any
  parse or proof failure, some h the recomputed vrf hash. -/
  proofToHash : Bytes → Bytes → Bytes → Option Bytes
  /-- types.Encode of a VrfInput protobuf. -/
  encodeInput : VrfInput → Bytes
  /-- address.PubKeyToAddr. -/
  pubKeyToAddr : Bytes → String
  /-- pt.Pos33SortBlocks (the sortition delay of the first variant). -/
  sortBlocks : Int
  /-- pt.Pos33VoterSize. -/
  voterSize : Nat
  /-- pt.Pos33MakerSize. -/
  makerSize : Nat
  /-- pt.Pos33ProposerSize (maker target of the second variant). -/
  proposerSize : Nat
  /-- pt.Pos33RewardVotes (the reward-vote cap, K_reward of the spec). -/
  rewardVotes : Nat
  /-- pt.Pos33SortitionSize (the sortition delay of the second variant). -/
  sortitionSize : Int
  /-- calcuDiffBlockN (the online-rate window, DiffWindow of the spec). -/
  diffBlockN : Nat

/-- Hash of a message (string(s.SortHash.Hash) in the source); empty if the
sort-hash sub-message is missing. -/
def hashOf (m : Pos33SortMsg) : Bytes :=
  match m.sortHash with
  | some sh => sh.hash
  | none => []

/-- Pubkey of a message (s.Proof.Pubkey); empty if the proof is missing. -/
def pubkeyOf (m : Pos33SortMsg) : Bytes :=
  match m.proof with
  | some p => p.pubkey
  | none => []

/-- Modelled from the spec: the comparator of pt.Sorts (declared outside the
given sources): messages ordered by sort hash, lexicographic bytes ascending. -/
def msgLE (a b : Pos33SortMsg) : Prop := bytesLE (hashOf a) (hashOf b) = true

instance : DecidableRel msgLE := fun _ _ => inferInstanceAs (Decidable (_ = true))

/-- vrfVerify of the source: parse the pubkey, recompute the hash from the proof,
compare with the declared hash; every failure maps to pt.ErrVrfVerify. -/
def vrfVerify (E : Env) (pub input proof hash : Bytes) : Except SortError Unit :=
  match E.proofToHash pub input proof with
  | none => .error .vrfFailed
  | some h => if h = hash then .ok () else .error .vrfFailed

/-- The proof envelope built by voterSort and makerSort of the first variant. -/
def mkProofV1 (E : Env) (pv seed : Bytes) (height round step : Int) (diff : ℚ) : HashProof :=
  { input := some { seed := seed, height := height, round := round, step := step }
    diff := diff
    vrfHash := (E.evaluate pv (E.encodeInput { seed := seed, height := height, round := round, step := step })).1
    vrfProof := (E.evaluate pv (E.encodeInput { seed := seed, height := height, round := round, step := step })).2
    pubkey := E.pubOf pv }

/-- The accepted entries of voterSort: for each local ticket i below count,
hash the three-field pre-image and keep the ticket when the threshold test
passes. -/
def voterCandidates (E : Env) (count : Nat) (proof : HashProof) (num : Int) (diff : ℚ) :
    List Pos33SortMsg :=
  (List.range count).filterMap (fun (i : Nat) =>
    let hash := E.hash2 (sortData proof.vrfHash (i : Int) num)
    if ratioGT hash diff then none
    else some { sortHash := some { hash := hash, index := (i : Int), num := num },
                proof := some proof })

/-- voterSort of the first variant.  count models n.myCount(), priv models
n.getPriv() (none: no key, produce nothing).  The effective difficulty is scaled by
VoterSize / MakerSize; if more than RewardVotes entries are accepted the list
is sorted by hash and truncated.  Go sort.Sort is modelled (from the spec) by
insertionSort with the hash-ascending comparator. -/
def voterSort (E : Env) (count : Nat) (priv : Option Bytes) (seed : Bytes)
    (height round num : Int) (diff0 : ℚ) : List Pos33SortMsg :=
  match priv with
  | none => []
  | some pv =>
    let diff := diff0 * ((E.voterSize : ℚ) / (E.makerSize : ℚ))
    let proof := mkProofV1 E pv seed height round 1 diff
    let msgs := voterCandidates E count proof num diff
    if msgs.length = 0 then []
    else if E.rewardVotes < msgs.length then
      (List.insertionSort msgLE msgs).take E.rewardVotes
    else msgs

/-- The accepted entries of makerSort: trials j in {0,1,2} (outer loop) and
tickets i below count (inner loop), in source iteration order. -/
def makerCandidates (E : Env) (count : Nat) (proof : HashProof) (diff : ℚ) :
    List Pos33SortMsg :=
  (List.range 3).flatMap (fun (j : Nat) =>
    (List.range count).filterMap (fun (i : Nat) =>
      let hash := E.hash2 (sortData proof.vrfHash (i : Int) (j : Int))
      if ratioGT hash diff then none
      else some { sortHash := some { hash := hash, index := (i : Int), num := (j : Int) },
                  proof := some proof }))

/-- The running-minimum update of makerSort: take the first accepted message,
then replace it whenever a strictly hash-smaller one appears. -/
def minMsg : Option Pos33SortMsg → Pos33SortMsg → Option Pos33SortMsg
  | none, m => some m
  | some a, m => if bytesLT (hashOf m) (hashOf a) then some m else some a

/-- makerSort of the first variant.  diff models n.getDiff(height, round)
(node state outside this file).  Note the source returns the one-element slice
holding minSort even when minSort is nil. -/
def makerSort (E : Env) (count : Nat) (priv : Option Bytes) (diff : ℚ) (seed : Bytes)
    (height round : Int) : List (Option Pos33SortMsg) :=
  match priv with
  | none => []
  | some pv =>
    let proof := mkProofV1 E pv seed height round 0 diff
    [(makerCandidates E count proof diff).foldl minMsg none]

/-- verifySort of the first variant.  queryDeposit models the deposit-state
lookup through the host API; a lookup error is propagated. -/
def verifySort (E : Env) (queryDeposit : String → Except Unit Pos33DepositMsg)
    (height step : Int) (seed : Bytes) (m : Option Pos33SortMsg) : Except SortError Unit :=
  if height ≤ E.sortBlocks then .ok ()
  else
    match m with
    | none => .error .nilMsg
    | some msg =>
      match msg.proof, msg.sortHash with
      | some proof, some sh =>
        match proof.input with
        | none => .error .nilMsg
        | some inp =>
          match queryDeposit (E.pubKeyToAddr proof.pubkey) with
          | .error _ => .error .depositErr
          | .ok d =>
            let count := if d.closeHeight ≥ height - E.sortBlocks then d.preCount else d.count
            if count ≤ sh.index then .error .invalidIndex
            else
              match vrfVerify E proof.pubkey
                  (E.encodeInput { seed := seed, height := height, round := inp.round, step := step })
                  proof.vrfProof proof.vrfHash with
              | .error e => .error e
              | .ok _ =>
                if 3 ≤ sh.num ∨ sh.num < 0 then .error .invalidNum
                else
                  let hash := E.hash2 (sortData proof.vrfHash sh.index sh.num)
                  if hash ≠ sh.hash then .error .hashMismatch
                  else if ratioGT hash proof.diff then .error .diffExceeded
                  else .ok ()
      | _, _ => .error .nilMsg

namespace V2

/-- Pre-image string of the second variant, fmt.Sprintf with two fields only:
hex of the vrf hash and decimal index. -/
def sortData2 (vrfHash : Bytes) (index : Int) : String :=
  hexOfBytes vrfHash ++ "+" ++ toString index

/-- calcDiff of the second variant: committee size over total weight over the
online rate; nvs models the values held by the n.nvsMap window. -/
def calcDiff (E : Env) (nvs : List Int) (step allw _round : Int) : ℚ :=
  let size : Nat := if step = 0 then E.proposerSize else E.voterSize
  let onlineR : ℚ :=
    if E.diffBlockN ≤ nvs.length then
      ((nvs.foldl (· + ·) 0 : Int) : ℚ) / (nvs.length : ℚ) / (E.rewardVotes : ℚ)
    else 1
  (size : ℚ) / (allw : ℚ) / onlineR

/-- The proof envelope built by sort of the second variant; its Diff field is
never assigned, so it keeps the protobuf default 0. -/
def mkProofV2 (E : Env) (pv seed : Bytes) (height round step : Int) : HashProof :=
  { input := some { seed := seed, height := height, round := round, step := step }
    diff := 0
    vrfHash := (E.evaluate pv (E.encodeInput { seed := seed, height := height, round := round, step := step })).1
    vrfProof := (E.evaluate pv (E.encodeInput { seed := seed, height := height, round := round, step := step })).2
    pubkey := E.pubOf pv }

/-- The accepted entries of sort (second variant): two-field pre-image, the
message Num field keeps the protobuf default 0. -/
def sortCandidates (E : Env) (count : Nat) (proof : HashProof) (diff : ℚ) :
    List Pos33SortMsg :=
  (List.range count).filterMap (fun (i : Nat) =>
    let hash := E.hash2 (sortData2 proof.vrfHash (i : Int))
    if ratioGT hash diff then none
    else some { sortHash := some { hash := hash, index := (i : Int), num := 0 },
                proof := some proof })

/-- sort of the second variant.  For step 0 the source tracks the position of
the first minimal hash and returns that single message, which is modelled by
the same running-minimum fold; otherwise it sorts all accepted messages by
hash and truncates at VoterSize. -/
def sort (E : Env) (nvs : List Int) (count : Nat) (priv : Option Bytes) (seed : Bytes)
    (height round step allw : Int) : List Pos33SortMsg :=
  if allw < (count : Int) then []
  else
    match priv with
    | none => []
    | some pv =>
      let proof := mkProofV2 E pv seed height round step
      let diff := calcDiff E nvs step allw round
      let msgs := sortCandidates E count proof diff
      if msgs.length = 0 then []
      else if step = 0 then
        match msgs.foldl minMsg none with
        | some m => [m]
        | none => []
      else
        let sorted := List.insertionSort msgLE msgs
        if E.voterSize < sorted.length then sorted.take E.voterSize else sorted

/-- verifySort of the second variant: the threshold difficulty is recomputed
with calcDiff from the verifier state; the message Diff field is not read.
There is no num range check and the two-field pre-image is used. -/
def verifySort (E : Env) (queryDeposit : String → Except Unit Pos33DepositMsg)
    (nvs : List Int) (height step allw : Int) (seed : Bytes) (m : Option Pos33SortMsg) :
    Except SortError Unit :=
  if height ≤ E.sortitionSize then .ok ()
  else
    match m with
    | none => .error .nilMsg
    | some msg =>
      match msg.proof, msg.sortHash with
      | some proof, some sh =>
        match proof.input with
        | none => .error .nilMsg
        | some inp =>
          let diff := calcDiff E nvs step allw inp.round
          match queryDeposit (E.pubKeyToAddr proof.pubkey) with
          | .error _ => .error .depositErr
          | .ok d =>
            let count := if d.closeHeight ≥ height - E.sortitionSize then d.preCount else d.count
            if count ≤ sh.index then .error .invalidIndex
            else
              match vrfVerify E proof.pubkey
                  (E.encodeInput { seed := seed, height := height, round := inp.round, step := step })
                  proof.vrfProof proof.vrfHash with
              | .error e => .error e
              | .ok _ =>
                let hash := E.hash2 (sortData2 proof.vrfHash sh.index)
                if hash ≠ sh.hash then .error .hashMismatch
                else if ratioGT hash diff then .error .diffExceeded
                else .ok ()
      | _, _ => .error .nilMsg

/-- Go map assignment pss[k] = v on an association list: overwrite the entry
with key k if present, otherwise append. -/
def insertMap (acc : List (Bytes × Pos33SortMsg)) (k : Bytes) (v : Pos33SortMsg) :
    List (Bytes × Pos33SortMsg) :=
  if acc.any (fun p => p.1 = k) then acc.map (fun p => if p.1 = k then (k, v) else p)
  else acc ++ [(k, v)]

/-- The pss map of bp: every candidate passing checkSort is inserted keyed by
its sort hash.  checkSort lives outside the given sources and is modelled as
an abstract predicate. -/
def buildPss (checkSort : Pos33SortMsg → Bool) (cps : List Pos33SortMsg) :
    List (Bytes × Pos33SortMsg) :=
  cps.foldl (fun acc s => if checkSort s then insertMap acc (hashOf s) s else acc) []

/-- The minimum-search loop of bp: min starts as the empty string sentinel and
is replaced by the first key seen, then by every strictly smaller key. -/
def bpFoldStep (acc : Bytes × Bytes) (p : Bytes × Pos33SortMsg) : Bytes × Bytes :=
  if acc.1 = ([] : Bytes) then (p.1, pubkeyOf p.2)
  else if bytesLT p.1 acc.1 then (p.1, pubkeyOf p.2) else acc

/-- bp of the second variant, the selection aggregator: build the pss map from
the candidates of one (height, round), then return the minimal sort hash and
the pubkey of its message.  Go iterates the map in unspecified order; this
model fixes the insertion order, and the theorems below settle for which
tables the result is order independent. -/
def bp (checkSort : Pos33SortMsg → Bool) (cps : List Pos33SortMsg) : Bytes × Bytes :=
  let pss := buildPss checkSort cps
  if pss.isEmpty then ([], [])
  else pss.foldl bpFoldStep ([], [])

end V2

/-! Order properties of the byte-string comparison. -/

theorem bytesLT_irrefl (a : Bytes) : bytesLT a a = false := by
  induction a with
  | nil => rfl
  | cons x xs ih => simp [bytesLT, ih]

theorem bytesLT_asymm : ∀ {a b : Bytes}, bytesLT a b = true → bytesLT b a = false
  | [], [], h => by simp [bytesLT] at h
  | [], _ :: _, _ => rfl
  | _ :: _, [], h => by simp [bytesLT] at h
  | x :: xs, y :: ys, h => by
    simp only [bytesLT, Bool.or_eq_true, Bool.and_eq_true, beq_iff_eq, decide_eq_true_eq] at h ⊢
    rcases h with h | ⟨he, h⟩
    · simp only [Bool.or_eq_false_iff, Bool.and_eq_false_iff]
      exact ⟨by simpa using Nat.le_of_lt h, Or.inl (by simpa using Nat.ne_of_gt h)⟩
    · subst he
      simp [Nat.lt_irrefl, bytesLT_asymm h]

theorem bytesLT_conn : ∀ {a b : Bytes}, bytesLT a b = false → bytesLT b a = false → a = b
  | [], [], _, _ => rfl
  | [], _ :: _, h, _ => by simp [bytesLT] at h
  | _ :: _, [], _, h => by simp [bytesLT] at h
  | x :: xs, y :: ys, h1, h2 => by
    simp only [bytesLT, Bool.or_eq_false_iff, Bool.and_eq_false_iff, beq_eq_false_iff_ne,
      ne_eq, decide_eq_false_iff_not] at h1 h2
    obtain ⟨hxy, h1'⟩ := h1
    obtain ⟨hyx, h2'⟩ := h2
    have hxyeq : x = y := Nat.le_antisymm (Nat.not_lt.mp hyx) (Nat.not_lt.mp hxy)
    subst hxyeq
    rcases h1' with h | h
    · exact absurd rfl h
    · rcases h2' with h' | h'
      · exact absurd rfl h'
      · rw [bytesLT_conn h h']

theorem bytesLT_trans : ∀ {a b c : Bytes},
    bytesLT a b = true → bytesLT b c = true → bytesLT a c = true
  | [], _, _ :: _, _, _ => rfl
  | [], _ :: _, [], _, h2 => by simp [bytesLT] at h2
  | [], [], [], h1, _ => by simp [bytesLT] at h1
  | _ :: _, [], _, h1, _ => by simp [bytesLT] at h1
  | _ :: _, _ :: _, [], _, h2 => by simp [bytesLT] at h2
  | x :: xs, y :: ys, z :: zs, h1, h2 => by
    simp only [bytesLT, Bool.or_eq_true, Bool.and_eq_true, beq_iff_eq, decide_eq_true_eq]
      at h1 h2 ⊢
    rcases h1 with h1 | ⟨he1, h1⟩
    · rcases h2 with h2 | ⟨he2, h2⟩
      · exact Or.inl (Nat.lt_trans h1 h2)
      · exact Or.inl (he2 ▸ h1)
    · subst he1
      rcases h2 with h2 | ⟨he2, h2⟩
      · exact Or.inl h2
      · exact Or.inr ⟨he2, bytesLT_trans h1 h2⟩

theorem bytesLE_refl (a : Bytes) : bytesLE a a = true := by
  simp [bytesLE, bytesLT_irrefl]

theorem bytesLE_total (a b : Bytes) : bytesLE a b = true ∨ bytesLE b a = true := by
  rcases h : bytesLT b a with _ | _
  · exact Or.inl (by simp [bytesLE, h])
  · exact Or.inr (by simp [bytesLE, bytesLT_asymm h])

theorem bytesLE_trans {a b c : Bytes} (h1 : bytesLE a b = true) (h2 : bytesLE b c = true) :
    bytesLE a c = true := by
  simp only [bytesLE, Bool.not_eq_true'] at h1 h2 ⊢
  by_contra hca
  have hca' : bytesLT c a = true := by
    rcases h : bytesLT c a with _ | _
    · exact absurd h hca
    · rfl
  rcases h : bytesLT a b with _ | _
  · have hab : a = b := bytesLT_conn h h1
    subst hab
    exact absurd hca' (by simp [h2])
  · have : bytesLT c b = true := bytesLT_trans hca' h
    exact absurd this (by simp [h2])

theorem bytesLT_le {a b : Bytes} (h : bytesLT a b = true) : bytesLE a b = true := by
  simp [bytesLE, bytesLT_asymm h]

theorem bytesLE_antisymm {a b : Bytes} (h1 : bytesLE a b = true) (h2 : bytesLE b a = true) :
    a = b := by
  simp only [bytesLE, Bool.not_eq_true'] at h1 h2
  exact bytesLT_conn h2 h1

instance : IsTotal Pos33SortMsg msgLE :=
  ⟨fun a b => bytesLE_total (hashOf a) (hashOf b)⟩

instance : IsTrans Pos33SortMsg msgLE :=
  ⟨fun _ _ _ h1 h2 => bytesLE_trans h1 h2⟩

/-! The running-minimum fold shared by makerSort and the maker branch of V2.sort. -/

theorem foldl_minMsg_some (l : List Pos33SortMsg) (a : Pos33SortMsg) :
    ∃ m, l.foldl minMsg (some a) = some m ∧ (m = a ∨ m ∈ l) ∧
      bytesLE (hashOf m) (hashOf a) = true ∧
      ∀ x ∈ l, bytesLE (hashOf m) (hashOf x) = true := by
  induction l generalizing a with
  | nil => exact ⟨a, rfl, Or.inl rfl, bytesLE_refl _, by simp⟩
  | cons y ys ih =>
    simp only [List.foldl_cons]
    rcases hc : bytesLT (hashOf y) (hashOf a) with _ | _
    · have hstep : minMsg (some a) y = some a := by simp [minMsg, hc]
      rw [hstep]
      obtain ⟨m, hm, hmem, hle, hall⟩ := ih a
      refine ⟨m, hm, ?_, hle, ?_⟩
      · rcases hmem with h | h
        · exact Or.inl h
        · exact Or.inr (List.mem_cons_of_mem _ h)
      · intro x hx
        rcases List.mem_cons.mp hx with h | h
        · subst h
          exact bytesLE_trans hle (by simp [bytesLE, hc])
        · exact hall x h
    · have hstep : minMsg (some a) y = some y := by simp [minMsg, hc]
      rw [hstep]
      obtain ⟨m, hm, hmem, hle, hall⟩ := ih y
      refine ⟨m, hm, ?_, ?_, ?_⟩
      · rcases hmem with h | h
        · exact Or.inr (h ▸ List.mem_cons_self _ _)
        · exact Or.inr (List.mem_cons_of_mem _ h)
      · exact bytesLE_trans hle (bytesLT_le hc)
      · intro x hx
        rcases List.mem_cons.mp hx with h | h
        · exact h ▸ hle
        · exact hall x h

theorem foldl_minMsg_char (l : List Pos33SortMsg) (h : l ≠ []) :
    ∃ m, l.foldl minMsg none = some m ∧ m ∈ l ∧
      ∀ x ∈ l, bytesLE (hashOf m) (hashOf x) = true := by
  match l, h with
  | y :: ys, _ =>
    simp only [List.foldl_cons]
    have hstep : minMsg none y = some y := rfl
    rw [hstep]
    obtain ⟨m, hm, hmem, hle, hall⟩ := foldl_minMsg_some ys y
    refine ⟨m, hm, ?_, ?_⟩
    · rcases hmem with h | h
      · exact h ▸ List.mem_cons_self _ _
      · exact List.mem_cons_of_mem _ h
    · intro x hx
      rcases List.mem_cons.mp hx with h | h
      · exact h ▸ hle
      · exact hall x h

/-! Characterization of the candidate lists and of the producer outputs. -/

theorem mem_voterCandidates {E : Env} {count : Nat} {proof : HashProof} {num : Int}
    {diff : ℚ} {m : Pos33SortMsg} :
    m ∈ voterCandidates E count proof num diff ↔
      ∃ i : Nat, i < count ∧
        ratioGT (E.hash2 (sortData proof.vrfHash (i : Int) num)) diff = false ∧
        m = { sortHash := some { hash := E.hash2 (sortData proof.vrfHash (i : Int) num),
                                 index := (i : Int), num := num },
              proof := some proof } := by
  simp only [voterCandidates, List.mem_filterMap, List.mem_range]
  constructor
  · rintro ⟨i, hi, hf⟩
    rcases hr : ratioGT (E.hash2 (sortData proof.vrfHash (i : Int) num)) diff with _ | _
    · simp only [hr, if_neg Bool.false_ne_true, Option.some.injEq] at hf
      exact ⟨i, hi, hr, hf.symm⟩
    · simp [hr] at hf
  · rintro ⟨i, hi, hr, hm⟩
    exact ⟨i, hi, by simp [hr, hm]⟩

theorem mem_makerCandidates {E : Env} {count : Nat} {proof : HashProof}
    {diff : ℚ} {m : Pos33SortMsg} :
    m ∈ makerCandidates E count proof diff ↔
      ∃ j : Nat, j < 3 ∧ ∃ i : Nat, i < count ∧
        ratioGT (E.hash2 (sortData proof.vrfHash (i : Int) (j : Int))) diff = false ∧
        m = { sortHash := some { hash := E.hash2 (sortData proof.vrfHash (i : Int) (j : Int)),
                                 index := (i : Int), num := (j : Int) },
              proof := some proof } := by
  simp only [makerCandidates, List.mem_flatMap, List.mem_filterMap, List.mem_range]
  constructor
  · rintro ⟨j, hj, i, hi, hf⟩
    rcases hr : ratioGT (E.hash2 (sortData proof.vrfHash (i : Int) (j : Int))) diff with _ | _
    · simp only [hr, if_neg Bool.false_ne_true, Option.some.injEq] at hf
      exact ⟨j, hj, i, hi, hr, hf.symm⟩
    · simp [hr] at hf
  · rintro ⟨j, hj, i, hi, hr, hm⟩
    exact ⟨j, hj, i, hi, by simp [hr, hm]⟩

theorem voterSort_eq (E : Env) (count : Nat) (pv seed : Bytes) (height round num : Int)
    (d0 : ℚ) :
    voterSort E count (some pv) seed height round num d0 =
      (let diff := d0 * ((E.voterSize : ℚ) / (E.makerSize : ℚ))
       let msgs := voterCandidates E count (mkProofV1 E pv seed height round 1 diff) num diff
       if msgs.length = 0 then []
       else if E.rewardVotes < msgs.length then
         (List.insertionSort msgLE msgs).take E.rewardVotes
       else msgs) := rfl

theorem makerSort_eq (E : Env) (count : Nat) (pv : Bytes) (d : ℚ) (seed : Bytes)
    (height round : Int) :
    makerSort E count (some pv) d seed height round =
      [(makerCandidates E count (mkProofV1 E pv seed height round 0 d) d).foldl minMsg none] :=
  rfl

theorem voterSort_subset {E : Env} {count : Nat} {pv seed : Bytes}
    {height round num : Int} {d0 : ℚ} {m : Pos33SortMsg}
    (hm : m ∈ voterSort E count (some pv) seed height round num d0) :
    m ∈ voterCandidates E count
        (mkProofV1 E pv seed height round 1 (d0 * ((E.voterSize : ℚ) / (E.makerSize : ℚ))))
        num (d0 * ((E.voterSize : ℚ) / (E.makerSize : ℚ))) := by
  rw [voterSort_eq] at hm
  simp only at hm
  set diff := d0 * ((E.voterSize : ℚ) / (E.makerSize : ℚ)) with hdiff
  set msgs := voterCandidates E count (mkProofV1 E pv seed height round 1 diff) num diff
    with hmsgs
  by_cases h0 : msgs.length = 0
  · simp [h0] at hm
  · rw [if_neg h0] at hm
    by_cases hk : E.rewardVotes < msgs.length
    · rw [if_pos hk] at hm
      have := List.take_subset E.rewardVotes (List.insertionSort msgLE msgs)
      have hmem : m ∈ List.insertionSort msgLE msgs := this hm
      exact (List.mem_insertionSort msgLE).mp hmem
    · rwa [if_neg hk] at hm

theorem vrfVerify_error_eq {E : Env} {pub input proof hash : Bytes} {e : SortError}
    (h : vrfVerify E pub input proof hash = .error e) : e = .vrfFailed := by
  unfold vrfVerify at h
  rcases hp : E.proofToHash pub input proof with _ | h'
  · rw [hp] at h
    exact (Except.error.injEq _ _).mp h.symm |>.symm ▸ rfl
  · rw [hp] at h
    by_cases he : h' = hash
    · simp [he] at h
    · simp only [if_neg he] at h
      cases h
      rfl

theorem verifySort_eq_of_complete (E : Env)
    (qd : String → Except Unit Pos33DepositMsg) (height step : Int) (seed : Bytes)
    (msg : Pos33SortMsg) (proof : HashProof) (sh : SortHash) (inp : VrfInput)
    (d : Pos33DepositMsg)
    (hh : ¬ height ≤ E.sortBlocks)
    (hp : msg.proof = some proof) (hs : msg.sortHash = some sh)
    (hin : proof.input = some inp)
    (hq : qd (E.pubKeyToAddr proof.pubkey) = .ok d) :
    verifySort E qd height step seed (some msg) =
      (if (if d.closeHeight ≥ height - E.sortBlocks then d.preCount else d.count) ≤ sh.index
       then .error .invalidIndex
       else
         match vrfVerify E proof.pubkey
             (E.encodeInput { seed := seed, height := height, round := inp.round, step := step })
             proof.vrfProof proof.vrfHash with
         | .error e => .error e
         | .ok _ =>
           if 3 ≤ sh.num ∨ sh.num < 0 then .error .invalidNum
           else if E.hash2 (sortData proof.vrfHash sh.index sh.num) ≠ sh.hash then
             .error .hashMismatch
           else if ratioGT (E.hash2 (sortData proof.vrfHash sh.index sh.num)) proof.diff then
             .error .diffExceeded
           else .ok ()) := by
  obtain ⟨osh, opf⟩ := msg
  simp only at hp hs
  subst hp
  subst hs
  unfold verifySort
  rw [if_neg hh]
  simp only [hin, hq]

/-! Concrete instantiations of the external environment, used to witness the
theorems below on closed inputs. -/

/-- A minimal environment: the double hash is constant [0], the VRF pair is
([1], [2]) and verification recomputes [1]. -/
def E0 : Env where
  hash2 := fun _ => [0]
  evaluate := fun _ _ => ([1], [2])
  pubOf := fun p => p
  proofToHash := fun _ _ _ => some [1]
  encodeInput := fun _ => []
  pubKeyToAddr := fun _ => "a"
  sortBlocks := 10
  voterSize := 1
  makerSize := 1
  proposerSize := 1
  rewardVotes := 1
  sortitionSize := 10
  diffBlockN := 5

/-- E0 with a reward-vote cap above 3, exhibiting the gap between the claimed
voter num range and the coded one. -/
def E3 : Env := { E0 with rewardVotes := 4 }

/-- The producer-side VRF input for height 11, round 0, voter step. -/
def inpA : VrfInput := { seed := [], height := 11, round := 0, step := 1 }

/-- A proof envelope matching E0 for inpA. -/
def pfA : HashProof :=
  { input := some inpA, diff := 1, vrfHash := [1], vrfProof := [2], pubkey := [5] }

/-- A deposit record: one live ticket, closed far in the past. -/
def depA : Pos33DepositMsg := { count := 1, preCount := 1, closeHeight := -100 }

/-- A deposit oracle that always answers depA. -/
def qd0 : String → Except Unit Pos33DepositMsg := fun _ => .ok depA

/-- A message whose ticket index 5 exceeds the resolved count 1. -/
def msgIdxA : Pos33SortMsg :=
  { sortHash := some { hash := [0], index := 5, num := 0 }, proof := some pfA }

/-- A voter message with num = 3, inside the claimed voter range when the
reward cap exceeds 3, but outside the coded range [0,3). -/
def msgNumA : Pos33SortMsg :=
  { sortHash := some { hash := [0], index := 0, num := 3 }, proof := some pfA }

/-- Modelled from the spec: the per-step legal num range stated in section 4.4
of the spec, [0,3) for the maker step and [0, K_reward) for the voter step. -/
def specNumLegal (step : Int) (kReward : Nat) (num : Int) : Prop :=
  0 ≤ num ∧ num < (if step = 0 then 3 else (kReward : Int))

/-- Modelled from the spec: target_size of the difficulty formula, the maker
target for step 0 and the voter target otherwise. -/
def specTargetSize (E : Env) (step : Int) : ℚ :=
  if step = 0 then (E.proposerSize : ℚ) else (E.voterSize : ℚ)

/-- Modelled from the spec: the online rate, 1 below the window and
(sum of observed vote counts) / (window size * K_reward) once the map holds at
least DiffWindow entries, the window size being the number of entries held. -/
def specOnlineRate (E : Env) (nvs : List Int) : ℚ :=
  if E.diffBlockN ≤ nvs.length then
    ((nvs.foldl (· + ·) 0 : Int) : ℚ) / ((nvs.length : ℚ) * (E.rewardVotes : ℚ))
  else 1

/-- Claim C9: for every height at most the sortition delay, both verifiers
accept every message unconditionally, including nil and structurally
incomplete ones, for every deposit oracle, VRF behaviour and hash function. -/
theorem genesis_window_accept (E : Env) (qd : String → Except Unit Pos33DepositMsg)
    (nvs : List Int) (height step allw : Int) (seed : Bytes) (m : Option Pos33SortMsg) :
    (height ≤ E.sortBlocks → verifySort E qd height step seed m = .ok ()) ∧
    (height ≤ E.sortitionSize → V2.verifySort E qd nvs height step allw seed m = .ok ()) := by
  constructor
  · intro h
    unfold verifySort
    rw [if_pos h]
  · intro h
    unfold V2.verifySort
    rw [if_pos h]

/-- Witness for C9 at height 5 with a nil message. -/
theorem genesis_window_accept_witness :
    verifySort E0 qd0 5 0 [] none = .ok () :=
  (genesis_window_accept E0 qd0 [] 5 0 0 [] none).1 (by decide)

/-- Claim C8: calcDiff returns target_size / total_weight / online_rate with
the target chosen by step and the online rate given by the sliding window. -/
theorem calcDiff_formula (E : Env) (nvs : List Int) (step allw round : Int) :
    V2.calcDiff E nvs step allw round =
      specTargetSize E step / (allw : ℚ) / specOnlineRate E nvs := by
  unfold V2.calcDiff specTargetSize specOnlineRate
  have hdd : ((nvs.foldl (· + ·) 0 : Int) : ℚ) / (nvs.length : ℚ) / (E.rewardVotes : ℚ)
      = ((nvs.foldl (· + ·) 0 : Int) : ℚ) / ((nvs.length : ℚ) * (E.rewardVotes : ℚ)) :=
    div_div _ _ _
  by_cases hw : E.diffBlockN ≤ nvs.length
  · by_cases hs : step = 0 <;> simp [hs, hw, hdd]
  · by_cases hs : step = 0 <;> simp [hs, hw]

/-- Claim C6: past the genesis window, on a structurally complete message with
a successful deposit lookup, verifySort fails with the invalid-index error
exactly when the message index reaches the resolved count, the count being the
pre-close count when the deposit closed inside the look-back window and the
live count otherwise. -/
theorem delayed_snapshot_index_bound (E : Env)
    (qd : String → Except Unit Pos33DepositMsg) (height step : Int) (seed : Bytes)
    (msg : Pos33SortMsg) (proof : HashProof) (sh : SortHash) (inp : VrfInput)
    (d : Pos33DepositMsg)
    (hh : ¬ height ≤ E.sortBlocks)
    (hp : msg.proof = some proof) (hs : msg.sortHash = some sh)
    (hin : proof.input = some inp)
    (hq : qd (E.pubKeyToAddr proof.pubkey) = .ok d) :
    (verifySort E qd height step seed (some msg) = .error .invalidIndex ↔
      (if d.closeHeight ≥ height - E.sortBlocks then d.preCount else d.count) ≤ sh.index) := by
  rw [verifySort_eq_of_complete E qd height step seed msg proof sh inp d hh hp hs hin hq]
  by_cases hidx : (if d.closeHeight ≥ height - E.sortBlocks then d.preCount else d.count)
      ≤ sh.index
  · rw [if_pos hidx]
    exact iff_of_true rfl hidx
  · rw [if_neg hidx]
    simp only [hidx, iff_false]
    rcases hvv : vrfVerify E proof.pubkey
        (E.encodeInput { seed := seed, height := height, round := inp.round, step := step })
        proof.vrfProof proof.vrfHash with e | u
    · have he := vrfVerify_error_eq hvv
      subst he
      simp
    · simp only []
      by_cases hn : 3 ≤ sh.num ∨ sh.num < 0
      · simp [hn]
      · rw [if_neg hn]
        by_cases hhash : E.hash2 (sortData proof.vrfHash sh.index sh.num) ≠ sh.hash
        · simp [hhash]
        · rw [if_neg hhash]
          by_cases hr : ratioGT (E.hash2 (sortData proof.vrfHash sh.index sh.num)) proof.diff
            = true
          · simp [hr]
          · simp [hr]

/-- Witness for C6: index 5 against resolved count 1 yields the invalid-index
error at height 11. -/
theorem delayed_snapshot_index_bound_witness :
    verifySort E0 qd0 11 1 [] (some msgIdxA) = .error .invalidIndex :=
  (delayed_snapshot_index_bound E0 qd0 11 1 [] msgIdxA pfA
      { hash := [0], index := 5, num := 0 } inpA depA
      (by decide) rfl rfl rfl rfl).mpr (by decide)

/-- Claim C3 (amended): verifySort applies one num range check, num in [0,3),
to both maker and voter messages; past the earlier checks it fails with the
invalid-num error exactly when num is at least 3 or negative, for either step. -/
theorem num_range_check (E : Env)
    (qd : String → Except Unit Pos33DepositMsg) (height step : Int) (seed : Bytes)
    (msg : Pos33SortMsg) (proof : HashProof) (sh : SortHash) (inp : VrfInput)
    (d : Pos33DepositMsg)
    (hh : ¬ height ≤ E.sortBlocks)
    (hp : msg.proof = some proof) (hs : msg.sortHash = some sh)
    (hin : proof.input = some inp)
    (hq : qd (E.pubKeyToAddr proof.pubkey) = .ok d)
    (hidx : ¬ (if d.closeHeight ≥ height - E.sortBlocks then d.preCount else d.count)
      ≤ sh.index)
    (hvv : vrfVerify E proof.pubkey
        (E.encodeInput { seed := seed, height := height, round := inp.round, step := step })
        proof.vrfProof proof.vrfHash = .ok ()) :
    (verifySort E qd height step seed (some msg) = .error .invalidNum ↔
      (3 ≤ sh.num ∨ sh.num < 0)) := by
  rw [verifySort_eq_of_complete E qd height step seed msg proof sh inp d hh hp hs hin hq]
  rw [if_neg hidx, hvv]
  by_cases hn : 3 ≤ sh.num ∨ sh.num < 0
  · rw [if_pos hn]
    exact iff_of_true rfl hn
  · rw [if_neg hn]
    simp only [hn, iff_false]
    by_cases hhash : E.hash2 (sortData proof.vrfHash sh.index sh.num) ≠ sh.hash
    · simp [hhash]
    · rw [if_neg hhash]
      by_cases hr : ratioGT (E.hash2 (sortData proof.vrfHash sh.index sh.num)) proof.diff
          = true
      · simp [hr]
      · simp [hr]

/-- Witness for the amended C3: a voter message with num = 3 fails with the
invalid-num error although its index and vrf checks pass. -/
theorem num_range_check_witness :
    verifySort E0 qd0 11 1 [] (some msgNumA) = .error .invalidNum :=
  (num_range_check E0 qd0 11 1 [] msgNumA pfA
      { hash := [0], index := 0, num := 3 } inpA depA
      (by decide) rfl rfl rfl rfl (by decide) rfl).mpr (by decide)

/-- Claim C3 (counterexample): with the reward cap at 4 the num value 3 lies
inside the claimed voter range [0, K_reward), yet verifySort rejects the
message with the invalid-num error, so the coded range is not the per-step
range of the claim. -/
theorem num_range_counterexample :
    verifySort E3 qd0 11 1 [] (some msgNumA) = .error .invalidNum ∧
      specNumLegal 1 E3.rewardVotes 3 := by
  constructor
  · rfl
  · constructor <;> decide

/-- An environment whose double hash is the maximal 32-byte string, driving the
hash ratio close to 1. -/
def E7 : Env := { E0 with hash2 := fun _ => List.replicate 32 255 }

/-- A self-declared diff of one half. -/
def pf7 : HashProof :=
  { input := some inpA, diff := 1 / 2, vrfHash := [1], vrfProof := [2], pubkey := [5] }

/-- A message carrying pf7 whose sort hash is the maximal 32-byte string. -/
def msg7 : Pos33SortMsg :=
  { sortHash := some { hash := List.replicate 32 255, index := 0, num := 0 },
    proof := some pf7 }

/-- A proof envelope declaring the generous diff 2. -/
def pf7b : HashProof :=
  { input := some inpA, diff := 2, vrfHash := [1], vrfProof := [2], pubkey := [5] }

/-- A message carrying pf7b whose sort hash is the maximal 32-byte string. -/
def msg7b : Pos33SortMsg :=
  { sortHash := some { hash := List.replicate 32 255, index := 0, num := 0 },
    proof := some pf7b }

/-- Claim C7 (amended): the first verifySort compares the hash ratio against
the diff carried inside the message's own proof envelope, failing with the
diff error exactly when the ratio exceeds that self-declared value, and
voterSort declares the scaled diff times VoterSize over MakerSize in the
envelope of every message it produces.  The second variant instead recomputes
the difficulty with calcDiff and never reads the declared diff; see the
counterexample. -/
theorem self_declared_diff (E : Env) :
    (∀ (qd : String → Except Unit Pos33DepositMsg) (height step : Int) (seed : Bytes)
      (msg : Pos33SortMsg) (proof : HashProof) (sh : SortHash) (inp : VrfInput)
      (d : Pos33DepositMsg),
      ¬ height ≤ E.sortBlocks →
      msg.proof = some proof → msg.sortHash = some sh → proof.input = some inp →
      qd (E.pubKeyToAddr proof.pubkey) = .ok d →
      ¬ (if d.closeHeight ≥ height - E.sortBlocks then d.preCount else d.count) ≤ sh.index →
      vrfVerify E proof.pubkey
        (E.encodeInput { seed := seed, height := height, round := inp.round, step := step })
        proof.vrfProof proof.vrfHash = .ok () →
      ¬ (3 ≤ sh.num ∨ sh.num < 0) →
      E.hash2 (sortData proof.vrfHash sh.index sh.num) = sh.hash →
      (verifySort E qd height step seed (some msg) = .error .diffExceeded ↔
        ratioGT sh.hash proof.diff = true)) ∧
    (∀ (count : Nat) (pv seed : Bytes) (height round num : Int) (d0 : ℚ)
      (m : Pos33SortMsg), m ∈ voterSort E count (some pv) seed height round num d0 →
      ∃ pf, m.proof = some pf ∧
        pf.diff = d0 * ((E.voterSize : ℚ) / (E.makerSize : ℚ))) := by
  constructor
  · intro qd height step seed msg proof sh inp d hh hp hs hin hq hidx hvv hn hhash
    rw [verifySort_eq_of_complete E qd height step seed msg proof sh inp d hh hp hs hin hq]
    rw [if_neg hidx, hvv]
    simp only []
    rw [if_neg hn, if_neg (by simp [hhash]), hhash]
    by_cases hr : ratioGT sh.hash proof.diff = true
    · rw [if_pos hr]
      exact iff_of_true rfl hr
    · rw [if_neg hr]
      constructor
      · intro h
        cases h
      · intro h
        exact absurd h hr
  · intro count pv seed height round num d0 m hm
    have hc := voterSort_subset hm
    obtain ⟨i, _, _, hme⟩ := mem_voterCandidates.mp hc
    exact ⟨_, by rw [hme], rfl⟩

/-- Witness for the amended C7: the ratio of the maximal hash exceeds the
self-declared diff of one half, so the first verifier reports the diff error. -/
theorem self_declared_diff_witness :
    verifySort E7 qd0 11 1 [] (some msg7) = .error .diffExceeded :=
  ((self_declared_diff E7).1 qd0 11 1 [] msg7 pf7
      { hash := List.replicate 32 255, index := 0, num := 0 } inpA depA
      (by decide) rfl rfl rfl rfl (by decide) rfl (by decide) rfl).mpr
    (by with_unfolding_all decide)

/-- Claim C7 (counterexample): the second verifySort rejects with the diff
error a message whose hash ratio does not exceed its self-declared diff 2,
because the threshold it applies is the recomputed calcDiff value, not the
declared one. -/
theorem self_declared_diff_counterexample :
    V2.verifySort E7 qd0 [] 11 1 2 [] (some msg7b) = .error .diffExceeded ∧
      ratioGT (List.replicate 32 255) pf7b.diff = false := by
  constructor
  · with_unfolding_all rfl
  · with_unfolding_all decide

theorem makerSort_some_mem {E : Env} {count : Nat} {pv : Bytes} {d : ℚ} {seed : Bytes}
    {height round : Int} {m : Pos33SortMsg}
    (hm : some m ∈ makerSort E count (some pv) d seed height round) :
    m ∈ makerCandidates E count (mkProofV1 E pv seed height round 0 d) d ∧
      ∀ x ∈ makerCandidates E count (mkProofV1 E pv seed height round 0 d) d,
        bytesLE (hashOf m) (hashOf x) = true := by
  rw [makerSort_eq] at hm
  have hfold : (makerCandidates E count (mkProofV1 E pv seed height round 0 d) d).foldl
      minMsg none = some m := (List.mem_singleton.mp hm).symm
  by_cases hnil : makerCandidates E count (mkProofV1 E pv seed height round 0 d) d = []
  · rw [hnil] at hfold
    cases hfold
  · obtain ⟨m2, hm2, hmem, hall⟩ := foldl_minMsg_char _ hnil
    rw [hfold] at hm2
    cases hm2
    exact ⟨hmem, hall⟩

/-- An environment whose double hash is the length of the pre-image string,
separating distinct pre-image shapes. -/
def E2 : Env := { E0 with hash2 := fun s => [s.length] }

/-- A voter message accepted by the first verifier in environment E0. -/
def msgW : Pos33SortMsg :=
  { sortHash := some { hash := [0], index := 0, num := 1 }, proof := some pfA }

/-- Claim C2 (amended): the three-field canonical pre-image
hex(vrf_hash) + "+" + dec(index) + "+" + dec(num) is hashed by voterSort, by
makerSort and by the first verifySort; the second variant hashes the two-field
string hex(vrf_hash) + "+" + dec(index) instead (see the counterexample). -/
theorem canonical_preimage_v1 (E : Env) :
    (∀ (count : Nat) (pv seed : Bytes) (height round num : Int) (d0 : ℚ)
      (m : Pos33SortMsg), m ∈ voterSort E count (some pv) seed height round num d0 →
      ∃ sh pf, m.sortHash = some sh ∧ m.proof = some pf ∧
        sh.hash = E.hash2 (canonicalData pf.vrfHash sh.index sh.num)) ∧
    (∀ (count : Nat) (pv : Bytes) (d : ℚ) (seed : Bytes) (height round : Int)
      (m : Pos33SortMsg), some m ∈ makerSort E count (some pv) d seed height round →
      ∃ sh pf, m.sortHash = some sh ∧ m.proof = some pf ∧
        sh.hash = E.hash2 (canonicalData pf.vrfHash sh.index sh.num)) ∧
    (∀ (h : Bytes) (i n : Int), sortData h i n = canonicalData h i n) ∧
    (∀ (qd : String → Except Unit Pos33DepositMsg) (height step : Int) (seed : Bytes)
      (msg : Pos33SortMsg) (proof : HashProof) (sh : SortHash) (inp : VrfInput)
      (d : Pos33DepositMsg),
      ¬ height ≤ E.sortBlocks →
      msg.proof = some proof → msg.sortHash = some sh → proof.input = some inp →
      qd (E.pubKeyToAddr proof.pubkey) = .ok d →
      verifySort E qd height step seed (some msg) = .ok () →
      sh.hash = E.hash2 (canonicalData proof.vrfHash sh.index sh.num)) := by
  refine ⟨?_, ?_, ?_, ?_⟩
  · intro count pv seed height round num d0 m hm
    obtain ⟨i, _, _, hme⟩ := mem_voterCandidates.mp (voterSort_subset hm)
    subst hme
    exact ⟨_, _, rfl, rfl, rfl⟩
  · intro count pv d seed height round m hm
    obtain ⟨j, _, i, _, _, hme⟩ := mem_makerCandidates.mp (makerSort_some_mem hm).1
    subst hme
    exact ⟨_, _, rfl, rfl, rfl⟩
  · intro h i n
    rfl
  · intro qd height step seed msg proof sh inp d hh hp hs hin hq hok
    rw [verifySort_eq_of_complete E qd height step seed msg proof sh inp d hh hp hs hin hq]
      at hok
    by_cases hidx : (if d.closeHeight ≥ height - E.sortBlocks then d.preCount else d.count)
        ≤ sh.index
    · rw [if_pos hidx] at hok
      cases hok
    · rw [if_neg hidx] at hok
      rcases hvv : vrfVerify E proof.pubkey
          (E.encodeInput { seed := seed, height := height, round := inp.round, step := step })
          proof.vrfProof proof.vrfHash with e | u
      · simp only [hvv] at hok
        cases hok
      · simp only [hvv] at hok
        by_cases hn : 3 ≤ sh.num ∨ sh.num < 0
        · rw [if_pos hn] at hok
          cases hok
        · rw [if_neg hn] at hok
          by_cases hhash : E.hash2 (sortData proof.vrfHash sh.index sh.num) ≠ sh.hash
          · rw [if_pos hhash] at hok
            cases hok
          · exact (not_not.mp hhash).symm

/-- Witness for the amended C2: the first verifier accepts msgW in E0 and its
hash indeed equals the double hash of the canonical three-field pre-image. -/
theorem canonical_preimage_v1_witness :
    ([0] : Bytes) = E0.hash2 (canonicalData [1] 0 1) :=
  (canonical_preimage_v1 E0).2.2.2 qd0 11 1 [] msgW pfA
    { hash := [0], index := 0, num := 1 } inpA depA
    (by decide) rfl rfl rfl rfl (by with_unfolding_all rfl)

/-- Claim C2 (counterexample): the sort of the second variant emits a message
whose hash is the double hash of the two-field string "01+0"; the canonical
three-field pre-image "01+0+0" of its fields hashes differently under an
injective-on-these-strings double hash, so the canonical format does not hold
on every producer path. -/
theorem canonical_preimage_counterexample :
    V2.sort E2 [] 1 (some [5]) [] 11 0 1 1 =
      [{ sortHash := some { hash := [4], index := 0, num := 0 },
         proof := some { input := some { seed := [], height := 11, round := 0, step := 1 },
                         diff := 0, vrfHash := [1], vrfProof := [2], pubkey := [5] } }] ∧
      E2.hash2 (canonicalData [1] 0 0) ≠ [4] := by
  constructor
  · with_unfolding_all rfl
  · with_unfolding_all decide

/-- Claim C4 (amended): with a key present, makerSort returns the one-element
list holding nil when no (trial, ticket) pair passes the threshold — including
count = 0 — rather than the empty list; when at least one pair passes it
returns exactly one message, an accepted entry whose sort hash is
lexicographically smallest in unsigned byte order over all trials j in {0,1,2}
and tickets i below count. -/
theorem makerSort_single_winner (E : Env) (count : Nat) (pv : Bytes) (d : ℚ)
    (seed : Bytes) (height round : Int) :
    (makerCandidates E count (mkProofV1 E pv seed height round 0 d) d = [] →
      makerSort E count (some pv) d seed height round = [none]) ∧
    (makerCandidates E count (mkProofV1 E pv seed height round 0 d) d ≠ [] →
      ∃ m, makerSort E count (some pv) d seed height round = [some m] ∧
        m ∈ makerCandidates E count (mkProofV1 E pv seed height round 0 d) d ∧
        ∀ x ∈ makerCandidates E count (mkProofV1 E pv seed height round 0 d) d,
          bytesLE (hashOf m) (hashOf x) = true) := by
  constructor
  · intro h
    rw [makerSort_eq, h]
    rfl
  · intro h
    obtain ⟨m, hm, hmem, hall⟩ := foldl_minMsg_char _ h
    exact ⟨m, by rw [makerSort_eq, hm], hmem, hall⟩

/-- Witness for the amended C4: with two tickets and diff 1 every pair is
accepted and makerSort returns a single minimal message. -/
theorem makerSort_single_winner_witness :
    ∃ m, makerSort E0 2 (some [5]) 1 [] 11 0 = [some m] ∧
      m ∈ makerCandidates E0 2 (mkProofV1 E0 [5] [] 11 0 0 1) 1 ∧
      ∀ x ∈ makerCandidates E0 2 (mkProofV1 E0 [5] [] 11 0 0 1) 1,
        bytesLE (hashOf m) (hashOf x) = true :=
  (makerSort_single_winner E0 2 [5] 1 [] 11 0).2 (by with_unfolding_all decide)

/-- Claim C4 (counterexample): with zero tickets no pair is accepted, yet
makerSort returns the one-element list holding nil, not the empty list. -/
theorem makerSort_empty_counterexample :
    makerSort E0 0 (some [5]) 1 [] 11 0 = [none] ∧
      makerSort E0 0 (some [5]) 1 [] 11 0 ≠ [] := by
  constructor
  · rfl
  · have h1 : makerSort E0 0 (some [5]) 1 [] 11 0 = [none] := rfl
    rw [h1]
    exact List.cons_ne_nil _ _

/-- Claim C1 (amended): a produced sortition message verifies when the
verifier resolves the same ticket count as the producer, the VRF library is
sound, and — for voter messages — the committee slot num lies in the coded
range [0,3); the nil entry emitted by makerSort when nothing is accepted is
excluded.  Without the num restriction the round trip fails, see the
counterexample. -/
theorem produce_verify_roundtrip (E : Env)
    (hvrf : ∀ pv i, E.proofToHash (E.pubOf pv) i (E.evaluate pv i).2
      = some (E.evaluate pv i).1)
    (qd : String → Except Unit Pos33DepositMsg)
    (count : Nat) (pv seed : Bytes) (height round : Int) (dep : Pos33DepositMsg)
    (hq : qd (E.pubKeyToAddr (E.pubOf pv)) = .ok dep)
    (hcnt : (if dep.closeHeight ≥ height - E.sortBlocks then dep.preCount else dep.count)
      = (count : Int)) :
    (∀ (num : Int) (d0 : ℚ), 0 ≤ num → num < 3 →
      ∀ m ∈ voterSort E count (some pv) seed height round num d0,
        verifySort E qd height 1 seed (some m) = .ok ()) ∧
    (∀ (d : ℚ) (m : Pos33SortMsg),
      some m ∈ makerSort E count (some pv) d seed height round →
      verifySort E qd height 0 seed (some m) = .ok ()) := by
  constructor
  · intro num d0 h0 h3 m hm
    by_cases hh : height ≤ E.sortBlocks
    · unfold verifySort
      rw [if_pos hh]
    · obtain ⟨i, hi, hr, hme⟩ := mem_voterCandidates.mp (voterSort_subset hm)
      subst hme
      rw [verifySort_eq_of_complete E qd height 1 seed _
          (mkProofV1 E pv seed height round 1 (d0 * ((E.voterSize : ℚ) / (E.makerSize : ℚ))))
          _ { seed := seed, height := height, round := round, step := 1 } dep
          hh rfl rfl rfl hq]
      rw [hcnt]
      dsimp only [mkProofV1] at hr ⊢
      rw [if_neg (by exact_mod_cast Nat.not_le.mpr hi)]
      have hv : vrfVerify E (E.pubOf pv)
          (E.encodeInput { seed := seed, height := height, round := round, step := 1 })
          (E.evaluate pv (E.encodeInput
            { seed := seed, height := height, round := round, step := 1 })).2
          (E.evaluate pv (E.encodeInput
            { seed := seed, height := height, round := round, step := 1 })).1 = .ok () := by
        unfold vrfVerify
        simp [hvrf]
      simp only [hv]
      rw [if_neg (by omega)]
      rw [if_neg (by simp)]
      rw [if_neg (by simp [hr])]
  · intro d m hm
    by_cases hh : height ≤ E.sortBlocks
    · unfold verifySort
      rw [if_pos hh]
    · obtain ⟨j, hj, i, hi, hr, hme⟩ := mem_makerCandidates.mp (makerSort_some_mem hm).1
      subst hme
      rw [verifySort_eq_of_complete E qd height 0 seed _
          (mkProofV1 E pv seed height round 0 d)
          _ { seed := seed, height := height, round := round, step := 0 } dep
          hh rfl rfl rfl hq]
      rw [hcnt]
      dsimp only [mkProofV1] at hr ⊢
      rw [if_neg (by exact_mod_cast Nat.not_le.mpr hi)]
      have hv : vrfVerify E (E.pubOf pv)
          (E.encodeInput { seed := seed, height := height, round := round, step := 0 })
          (E.evaluate pv (E.encodeInput
            { seed := seed, height := height, round := round, step := 0 })).2
          (E.evaluate pv (E.encodeInput
            { seed := seed, height := height, round := round, step := 0 })).1 = .ok () := by
        unfold vrfVerify
        simp [hvrf]
      simp only [hv]
      rw [if_neg (by omega)]
      rw [if_neg (by simp)]
      rw [if_neg (by simp [hr])]

/-- Witness for the amended C1: the voter message produced at slot num = 1
with one ticket verifies. -/
theorem produce_verify_roundtrip_witness :
    verifySort E0 qd0 11 1 [] (some msgW) = .ok () :=
  (produce_verify_roundtrip E0 (fun _ _ => rfl) qd0 1 [5] [] 11 0 depA rfl
      (by decide)).1 1 1 (by decide) (by decide) msgW (by with_unfolding_all decide)

/-- Claim C1 (counterexample): voterSort happily produces a message for slot
num = 3, yet the verifier rejects it with the invalid-num error even though
the stake snapshot matches, so the round trip fails as claimed. -/
theorem roundtrip_num_counterexample :
    voterSort E0 1 (some [5]) [] 11 0 3 1 = [msgNumA] ∧
      verifySort E0 qd0 11 1 [] (some msgNumA) = .error .invalidNum := by
  constructor
  · with_unfolding_all decide
  · rfl

/-- The accepted-entry list of voterSort, with the scaled difficulty spelled
out; voterSort is definitionally the cap applied to this list. -/
def voterAccepted (E : Env) (count : Nat) (pv seed : Bytes) (height round num : Int)
    (d0 : ℚ) : List Pos33SortMsg :=
  voterCandidates E count
    (mkProofV1 E pv seed height round 1 (d0 * ((E.voterSize : ℚ) / (E.makerSize : ℚ))))
    num (d0 * ((E.voterSize : ℚ) / (E.makerSize : ℚ)))

theorem voterSort_eq2 (E : Env) (count : Nat) (pv seed : Bytes) (height round num : Int)
    (d0 : ℚ) :
    voterSort E count (some pv) seed height round num d0 =
      if (voterAccepted E count pv seed height round num d0).length = 0 then []
      else if E.rewardVotes < (voterAccepted E count pv seed height round num d0).length then
        (List.insertionSort msgLE (voterAccepted E count pv seed height round num d0)).take
          E.rewardVotes
      else voterAccepted E count pv seed height round num d0 := rfl

/-- Claim C5 (amended): voterSort returns at most RewardVotes messages, and
when more entries are accepted it returns the RewardVotes hash-smallest ones
in ascending hash order (precisely: the sorted prefix whose elements are
hash-below every dropped accepted entry, the kept and dropped entries together
being a permutation of the accepted list).  The voter branch of the second
variant caps at VoterSize — not at RewardVotes, see the counterexample. -/
theorem voter_cap (E : Env) :
    (∀ (count : Nat) (priv : Option Bytes) (seed : Bytes) (height round num : Int)
      (d0 : ℚ),
      (voterSort E count priv seed height round num d0).length ≤ E.rewardVotes) ∧
    (∀ (count : Nat) (pv seed : Bytes) (height round num : Int) (d0 : ℚ),
      E.rewardVotes < (voterAccepted E count pv seed height round num d0).length →
      voterSort E count (some pv) seed height round num d0 =
        (List.insertionSort msgLE (voterAccepted E count pv seed height round num d0)).take
          E.rewardVotes ∧
      List.Sorted msgLE (voterSort E count (some pv) seed height round num d0) ∧
      (voterSort E count (some pv) seed height round num d0 ++
        (List.insertionSort msgLE (voterAccepted E count pv seed height round num d0)).drop
          E.rewardVotes).Perm (voterAccepted E count pv seed height round num d0) ∧
      ∀ a ∈ voterSort E count (some pv) seed height round num d0,
        ∀ b ∈ (List.insertionSort msgLE
            (voterAccepted E count pv seed height round num d0)).drop E.rewardVotes,
          msgLE a b) ∧
    (∀ (nvs : List Int) (count : Nat) (priv : Option Bytes) (seed : Bytes)
      (height round step allw : Int), step ≠ 0 →
      (V2.sort E nvs count priv seed height round step allw).length ≤ E.voterSize) := by
  refine ⟨?_, ?_, ?_⟩
  · intro count priv seed height round num d0
    match priv with
    | none => simp [voterSort]
    | some pv =>
      rw [voterSort_eq2]
      by_cases h0 : (voterAccepted E count pv seed height round num d0).length = 0
      · simp [h0]
      · rw [if_neg h0]
        by_cases hk : E.rewardVotes < (voterAccepted E count pv seed height round num d0).length
        · rw [if_pos hk]
          rw [List.length_take]
          exact min_le_left _ _
        · rw [if_neg hk]
          exact Nat.not_lt.mp hk
  · intro count pv seed height round num d0 hk
    have hout : voterSort E count (some pv) seed height round num d0 =
        (List.insertionSort msgLE (voterAccepted E count pv seed height round num d0)).take
          E.rewardVotes := by
      rw [voterSort_eq2, if_neg (by omega), if_pos hk]
    have hsorted : List.Sorted msgLE
        (List.insertionSort msgLE (voterAccepted E count pv seed height round num d0)) :=
      List.sorted_insertionSort msgLE _
    have hsplit : (List.insertionSort msgLE
          (voterAccepted E count pv seed height round num d0)).take E.rewardVotes ++
        (List.insertionSort msgLE
          (voterAccepted E count pv seed height round num d0)).drop E.rewardVotes =
        List.insertionSort msgLE (voterAccepted E count pv seed height round num d0) :=
      List.take_append_drop _ _
    refine ⟨hout, ?_, ?_, ?_⟩
    · rw [hout]
      exact hsorted.sublist (List.take_sublist _ _)
    · rw [hout, hsplit]
      exact List.perm_insertionSort msgLE _
    · rw [hout]
      have hpw : List.Pairwise msgLE
          ((List.insertionSort msgLE
            (voterAccepted E count pv seed height round num d0)).take E.rewardVotes ++
          (List.insertionSort msgLE
            (voterAccepted E count pv seed height round num d0)).drop E.rewardVotes) := by
        rw [hsplit]
        exact hsorted
      exact (List.pairwise_append.mp hpw).2.2
  · intro nvs count priv seed height round step allw hstep
    unfold V2.sort
    by_cases ha : allw < (count : Int)
    · simp [ha]
    · rw [if_neg ha]
      match priv with
      | none => simp
      | some pv =>
        simp only []
        by_cases h0 : (V2.sortCandidates E count (V2.mkProofV2 E pv seed height round step)
            (V2.calcDiff E nvs step allw round)).length = 0
        · rw [if_pos h0]
          simp
        · rw [if_neg h0, if_neg hstep]
          by_cases hc : E.voterSize < (List.insertionSort msgLE
              (V2.sortCandidates E count (V2.mkProofV2 E pv seed height round step)
                (V2.calcDiff E nvs step allw round))).length
          · rw [if_pos hc]
            rw [List.length_take]
            exact min_le_left _ _
          · rw [if_neg hc]
            exact Nat.not_lt.mp hc

/-- Witness for the amended C5: with two accepted entries and a reward cap of
one, voterSort returns the one-element sorted prefix of the accepted list. -/
theorem voter_cap_witness :
    voterSort E0 2 (some [5]) [] 11 0 1 1 =
      (List.insertionSort msgLE (voterAccepted E0 2 [5] [] 11 0 1 1)).take E0.rewardVotes :=
  ((voter_cap E0).2.1 2 [5] [] 11 0 1 1 (by with_unfolding_all decide)).1

/-- An environment with a committee size of two but a reward cap of one. -/
def E5 : Env := { E0 with voterSize := 2 }

/-- Claim C5 (counterexample): the voter branch of the second variant returns
two messages although the reward-vote cap is one — it truncates at VoterSize,
not at K_reward. -/
theorem voter_cap_v2_counterexample :
    (V2.sort E5 [] 2 (some [5]) [] 11 0 1 2).length = 2 ∧ E5.rewardVotes = 1 := by
  constructor
  · with_unfolding_all rfl
  · rfl

/-! Characterization of the bp aggregator. -/

theorem insertMap_append (acc : List (Bytes × Pos33SortMsg)) (k : Bytes) (v : Pos33SortMsg)
    (h : ∀ p ∈ acc, p.1 ≠ k) : V2.insertMap acc k v = acc ++ [(k, v)] := by
  unfold V2.insertMap
  rw [if_neg]
  intro hany
  obtain ⟨p, hp, hpk⟩ := List.any_eq_true.mp hany
  exact h p hp (of_decide_eq_true hpk)

theorem buildPss_go (checkSort : Pos33SortMsg → Bool) (cps : List Pos33SortMsg)
    (acc : List (Bytes × Pos33SortMsg))
    (hdisj : ∀ s ∈ cps, checkSort s = true → ∀ p ∈ acc, p.1 ≠ hashOf s)
    (hpw : (cps.filter checkSort).Pairwise (fun a b => hashOf a ≠ hashOf b)) :
    cps.foldl (fun acc s => if checkSort s then V2.insertMap acc (hashOf s) s else acc) acc =
      acc ++ (cps.filter checkSort).map (fun m => (hashOf m, m)) := by
  induction cps generalizing acc with
  | nil => simp
  | cons s ss ih =>
    rw [List.foldl_cons]
    by_cases hcs : checkSort s = true
    · have hstep : (if checkSort s = true then V2.insertMap acc (hashOf s) s else acc)
          = acc ++ [(hashOf s, s)] := by
        rw [if_pos hcs]
        exact insertMap_append acc (hashOf s) s
          (fun p hp => hdisj s (List.mem_cons_self _ _) hcs p hp)
      rw [hstep]
      rw [List.filter_cons_of_pos hcs] at hpw ⊢
      have hpw' := List.pairwise_cons.mp hpw
      rw [ih (acc ++ [(hashOf s, s)]) ?_ hpw'.2]
      · simp
      · intro s2 hs2 hcs2 p hp
        rcases List.mem_append.mp hp with h | h
        · exact hdisj s2 (List.mem_cons_of_mem _ hs2) hcs2 p h
        · have hps : p = (hashOf s, s) := List.mem_singleton.mp h
          subst hps
          exact hpw'.1 s2 (List.mem_filter.mpr ⟨hs2, hcs2⟩)
    · have hstep : (if checkSort s = true then V2.insertMap acc (hashOf s) s else acc)
          = acc := by
        rw [if_neg hcs]
      rw [hstep]
      rw [List.filter_cons_of_neg (by simp [hcs])] at hpw ⊢
      exact ih acc (fun s2 hs2 => hdisj s2 (List.mem_cons_of_mem _ hs2)) hpw

theorem buildPss_eq (checkSort : Pos33SortMsg → Bool) (cps : List Pos33SortMsg)
    (hpw : (cps.filter checkSort).Pairwise (fun a b => hashOf a ≠ hashOf b)) :
    V2.buildPss checkSort cps = (cps.filter checkSort).map (fun m => (hashOf m, m)) := by
  have h := buildPss_go checkSort cps [] (by intro s _ _ p hp; cases hp) hpw
  simpa [V2.buildPss] using h

theorem bpFold_go (l : List (Bytes × Pos33SortMsg)) (k : Bytes) (v : Bytes)
    (hk : k ≠ ([] : Bytes)) (hne : ∀ p ∈ l, p.1 ≠ ([] : Bytes)) :
    ∃ r : Bytes × Bytes, l.foldl V2.bpFoldStep (k, v) = r ∧
      (r = (k, v) ∨ ∃ p ∈ l, r = (p.1, pubkeyOf p.2)) ∧
      bytesLE r.1 k = true ∧ (∀ q ∈ l, bytesLE r.1 q.1 = true) ∧ r.1 ≠ ([] : Bytes) := by
  induction l generalizing k v with
  | nil => exact ⟨(k, v), rfl, Or.inl rfl, bytesLE_refl _, by simp, hk⟩
  | cons q qs ih =>
    rw [List.foldl_cons]
    have hq1 : q.1 ≠ ([] : Bytes) := hne q (List.mem_cons_self _ _)
    rcases ht : bytesLT q.1 k with _ | _
    · have hstep : V2.bpFoldStep (k, v) q = (k, v) := by
        unfold V2.bpFoldStep
        rw [if_neg hk, if_neg (by simp [ht])]
      rw [hstep]
      obtain ⟨r, hr, horig, hlek, hall, hrne⟩ :=
        ih k v hk (fun p hp => hne p (List.mem_cons_of_mem _ hp))
      refine ⟨r, hr, ?_, hlek, ?_, hrne⟩
      · rcases horig with h | ⟨p, hp, h⟩
        · exact Or.inl h
        · exact Or.inr ⟨p, List.mem_cons_of_mem _ hp, h⟩
      · intro p hp
        rcases List.mem_cons.mp hp with h | h
        · subst h
          exact bytesLE_trans hlek (by simp [bytesLE, ht])
        · exact hall p h
    · have hstep : V2.bpFoldStep (k, v) q = (q.1, pubkeyOf q.2) := by
        unfold V2.bpFoldStep
        rw [if_neg hk, if_pos ht]
      rw [hstep]
      obtain ⟨r, hr, horig, hlek, hall, hrne⟩ :=
        ih q.1 (pubkeyOf q.2) hq1 (fun p hp => hne p (List.mem_cons_of_mem _ hp))
      refine ⟨r, hr, ?_, ?_, ?_, hrne⟩
      · rcases horig with h | ⟨p, hp, h⟩
        · exact Or.inr ⟨q, List.mem_cons_self _ _, h⟩
        · exact Or.inr ⟨p, List.mem_cons_of_mem _ hp, h⟩
      · exact bytesLE_trans hlek (bytesLT_le ht)
      · intro p hp
        rcases List.mem_cons.mp hp with h | h
        · subst h
          exact hlek
        · exact hall p h

theorem bp_spec (checkSort : Pos33SortMsg → Bool) (cps : List Pos33SortMsg)
    (hne : ∀ m ∈ cps.filter checkSort, hashOf m ≠ ([] : Bytes))
    (hpw : (cps.filter checkSort).Pairwise (fun a b => hashOf a ≠ hashOf b)) :
    (cps.filter checkSort = [] → V2.bp checkSort cps = ([], [])) ∧
    (cps.filter checkSort ≠ [] →
      ∃ m ∈ cps.filter checkSort, V2.bp checkSort cps = (hashOf m, pubkeyOf m) ∧
        ∀ x ∈ cps.filter checkSort, bytesLE (hashOf m) (hashOf x) = true) := by
  constructor
  · intro hP
    unfold V2.bp
    rw [buildPss_eq checkSort cps hpw, hP]
    rfl
  · intro hP
    unfold V2.bp
    rw [buildPss_eq checkSort cps hpw]
    match hPe : cps.filter checkSort, hP with
    | m0 :: rest, _ =>
      have hne0 : hashOf m0 ≠ ([] : Bytes) := by
        apply hne
        rw [hPe]
        exact List.mem_cons_self _ _
      simp only [List.map_cons, List.isEmpty_cons, if_neg Bool.false_ne_true]
      rw [List.foldl_cons]
      have hstep : V2.bpFoldStep ([], []) (hashOf m0, m0) = (hashOf m0, pubkeyOf m0) := by
        unfold V2.bpFoldStep
        rw [if_pos rfl]
      rw [hstep]
      have hneRest : ∀ p ∈ rest.map (fun m => (hashOf m, m)), p.1 ≠ ([] : Bytes) := by
        intro p hp
        obtain ⟨m, hm, hpe⟩ := List.mem_map.mp hp
        subst hpe
        apply hne
        rw [hPe]
        exact List.mem_cons_of_mem _ hm
      obtain ⟨r, hr, horig, hlek, hall, _⟩ :=
        bpFold_go (rest.map (fun m => (hashOf m, m))) (hashOf m0) (pubkeyOf m0) hne0 hneRest
      rw [hr]
      rcases horig with h | ⟨p, hp, h⟩
      · refine ⟨m0, List.mem_cons_self _ _, h, ?_⟩
        intro x hx
        rcases List.mem_cons.mp hx with hxm | hxm
        · subst hxm
          exact bytesLE_refl _
        · have := hall (hashOf x, x) (List.mem_map.mpr ⟨x, hxm, rfl⟩)
          have hr1 : r.1 = hashOf m0 := by rw [h]
          rw [hr1] at this
          exact this
      · obtain ⟨m1, hm1, hpe⟩ := List.mem_map.mp hp
        subst hpe
        refine ⟨m1, List.mem_cons_of_mem _ hm1, h, ?_⟩
        intro x hx
        have hr1 : r.1 = hashOf m1 := by rw [h]
        rcases List.mem_cons.mp hx with hxm | hxm
        · subst hxm
          rw [hr1] at hlek
          exact hlek
        · have := hall (hashOf x, x) (List.mem_map.mpr ⟨x, hxm, rfl⟩)
          rw [hr1] at this
          exact this

theorem pairwise_hash_inj {l : List Pos33SortMsg}
    (hpw : l.Pairwise (fun a b => hashOf a ≠ hashOf b))
    {a b : Pos33SortMsg} (ha : a ∈ l) (hb : b ∈ l) (hab : hashOf a = hashOf b) : a = b := by
  induction l with
  | nil => cases ha
  | cons x xs ih =>
    have hpw' := List.pairwise_cons.mp hpw
    rcases List.mem_cons.mp ha with h1 | h1 <;> rcases List.mem_cons.mp hb with h2 | h2
    · rw [h1, h2]
    · subst h1
      exact absurd hab (hpw'.1 b h2)
    · subst h2
      exact absurd hab.symm (hpw'.1 a h1)
    · exact ih hpw'.2 h1 h2

/-- A proof envelope carrying only a pubkey, for aggregator tables. -/
def pfH (pk : Bytes) : HashProof :=
  { input := none, diff := 0, vrfHash := [], vrfProof := [], pubkey := pk }

/-- A candidate with sort hash [1] and pubkey [7]. -/
def mH1 : Pos33SortMsg :=
  { sortHash := some { hash := [1], index := 0, num := 0 }, proof := some (pfH [7]) }

/-- A candidate with the same sort hash [1] but pubkey [9]. -/
def mH2 : Pos33SortMsg :=
  { sortHash := some { hash := [1], index := 0, num := 0 }, proof := some (pfH [9]) }

/-- A candidate with sort hash [2] and pubkey [9]. -/
def mH3 : Pos33SortMsg :=
  { sortHash := some { hash := [2], index := 0, num := 0 }, proof := some (pfH [9]) }

/-- Claim C10 (amended): over every candidate table whose passing messages
have pairwise distinct non-empty sort hashes — which checkSort guarantees up
to hash collisions — bp returns the hash and pubkey of the passing candidate
with the lexicographically smallest sort hash, and its output is unchanged
under every permutation of the table; being a pure function of the table it is
idempotent.  With two distinct passing messages sharing one sort hash the Go
map overwrite makes the winner depend on insertion order, see the
counterexample. -/
theorem bp_min_winner (checkSort : Pos33SortMsg → Bool) (cps : List Pos33SortMsg)
    (hne : ∀ m ∈ cps.filter checkSort, hashOf m ≠ ([] : Bytes))
    (hpw : (cps.filter checkSort).Pairwise (fun a b => hashOf a ≠ hashOf b)) :
    (cps.filter checkSort ≠ [] →
      ∃ m ∈ cps.filter checkSort, V2.bp checkSort cps = (hashOf m, pubkeyOf m) ∧
        ∀ x ∈ cps.filter checkSort, bytesLE (hashOf m) (hashOf x) = true) ∧
    (∀ cps2 : List Pos33SortMsg, cps.Perm cps2 →
      V2.bp checkSort cps = V2.bp checkSort cps2) := by
  constructor
  · exact (bp_spec checkSort cps hne hpw).2
  · intro cps2 hperm
    have hfp : (cps.filter checkSort).Perm (cps2.filter checkSort) := hperm.filter checkSort
    have hne2 : ∀ m ∈ cps2.filter checkSort, hashOf m ≠ ([] : Bytes) := by
      intro m hm
      exact hne m (hfp.mem_iff.mpr hm)
    have hpw2 : (cps2.filter checkSort).Pairwise (fun a b => hashOf a ≠ hashOf b) :=
      (hfp.pairwise_iff (fun h => Ne.symm h)).mp hpw
    by_cases hP : cps.filter checkSort = []
    · have hP2 : cps2.filter checkSort = [] := by
        rw [hP] at hfp
        exact (List.Perm.eq_nil hfp.symm)
      rw [(bp_spec checkSort cps hne hpw).1 hP, (bp_spec checkSort cps2 hne2 hpw2).1 hP2]
    · have hP2 : cps2.filter checkSort ≠ [] := by
        intro h
        rw [h] at hfp
        exact hP (List.Perm.eq_nil hfp)
      obtain ⟨m1, hm1, he1, hall1⟩ := (bp_spec checkSort cps hne hpw).2 hP
      obtain ⟨m2, hm2, he2, hall2⟩ := (bp_spec checkSort cps2 hne2 hpw2).2 hP2
      have hm2' : m2 ∈ cps.filter checkSort := hfp.mem_iff.mpr hm2
      have hm1' : m1 ∈ cps2.filter checkSort := hfp.mem_iff.mp hm1
      have heq : hashOf m1 = hashOf m2 :=
        bytesLE_antisymm (hall1 m2 hm2') (hall2 m1 hm1')
      have hmm : m1 = m2 := pairwise_hash_inj hpw hm1 hm2' heq
      rw [he1, he2, hmm]

/-- Witness for the amended C10: two passing candidates with distinct hashes
[1] and [2] yield the same winner in either insertion order. -/
theorem bp_min_winner_witness :
    V2.bp (fun _ => true) [mH1, mH3] = V2.bp (fun _ => true) [mH3, mH1] :=
  (bp_min_winner (fun _ => true) [mH1, mH3] (by decide) (by decide)).2 [mH3, mH1]
    (List.Perm.swap mH3 mH1 [])

/-- Claim C10 (counterexample): two passing candidates sharing the sort hash
[1] but carrying different pubkeys form the same message set in either order,
yet bp returns pubkey [9] for one insertion order and pubkey [7] for the
other, because the later insertion overwrites the map entry. -/
theorem bp_order_counterexample :
    V2.bp (fun _ => true) [mH1, mH2] ≠ V2.bp (fun _ => true) [mH2, mH1] ∧
      List.Perm [mH1, mH2] [mH2, mH1] := by
  constructor
  · with_unfolding_all decide
  · exact List.Perm.swap mH2 mH1 []
